import Mathlib

/-!
Verification development for the tumor mask analysis core of the
cellular-automata-env-modeling repository (file src/model/size_location.py).

The mask is modelled as a list of rows of rational values.  The OpenCV call
cv2.connectedComponentsWithStats, an external library function, is modelled
by an executable connected-component labeling: foreground pixels are scanned
in row-major order, each unvisited foreground pixel seeds a breadth-first
search over its 4- or 8-neighborhood, and components are emitted in the order
their first pixel is encountered, labeled from 1 upward (label 0 is the
background and is never emitted as a region; OpenCV additionally emits a
statistics row for the background, which the source immediately discards via
the [1:] slices, so the model omits it).  The OpenCV function accepts a
connectivity argument that must be 4 or 8 (8 is the default used by the
source) and rejects any other value; that rejection is modelled by the
InvalidConfiguration error.  Pixel values and centroids are rationals;
floating point rounding is outside the scope of this embedding.
-/

/-- Error taxonomy used by the design document for this core.  The OpenCV
connectivity assertion is modelled as InvalidConfiguration.  No code path of
the source produces ShapeMismatch. -/
inductive AnalysisError where
  | InvalidConfiguration
  | ShapeMismatch
  deriving DecidableEq

deriving instance DecidableEq for Except

/-- Value of a grid at a pixel, 0 outside the grid.  Pixels are pairs
(row, column). -/
def maskAt (m : List (List ℚ)) (p : ℕ × ℕ) : ℚ :=
  ((m[p.1]?.getD [])[p.2]?).getD 0

/-- Elementwise threshold used at lines 35 and 64 of the source:
value strictly greater than 0.5 maps to 1, anything else to 0. -/
def binThresh (v : ℚ) : ℚ :=
  if 1/2 < v then 1 else 0

/-- Models the numpy expression (mask > 0.5).astype(np.uint8). -/
def binarize (m : List (List ℚ)) : List (List ℚ) :=
  m.map (List.map binThresh)

/-- Models np.zeros_like: a grid of zeros with the shape of the argument. -/
def zeros_like (m : List (List ℚ)) : List (List ℚ) :=
  m.map (List.map (fun _ => 0))

/-- Shape (H, W) of a grid, as numpy reports it for a rectangular array:
number of rows and length of the first row. -/
def shapeOf (m : List (List ℚ)) : ℕ × ℕ :=
  (m.length, (m.headD []).length)

/-- Eight-neighborhood of a pixel.  Coordinates use truncated subtraction,
so clamped entries coincide with the pixel itself or with another genuine
neighbor; the breadth-first search ignores such duplicates. -/
def neighbors8 (p : ℕ × ℕ) : List (ℕ × ℕ) :=
  [(p.1 - 1, p.2 - 1), (p.1 - 1, p.2), (p.1 - 1, p.2 + 1),
   (p.1, p.2 - 1), (p.1, p.2 + 1),
   (p.1 + 1, p.2 - 1), (p.1 + 1, p.2), (p.1 + 1, p.2 + 1)]

/-- Four-neighborhood of a pixel. -/
def neighbors4 (p : ℕ × ℕ) : List (ℕ × ℕ) :=
  [(p.1 - 1, p.2), (p.1, p.2 - 1), (p.1, p.2 + 1), (p.1 + 1, p.2)]

/-- Neighborhood selected by the OpenCV connectivity argument. -/
def connNeighbors (conn : ℕ) : (ℕ × ℕ) → List (ℕ × ℕ) :=
  if conn = 4 then neighbors4 else neighbors8

/-- Fuel-bounded breadth-first search collecting, in discovery order, the
foreground pixels reachable from the queue.  Only pixels satisfying fg are
ever added, so every element of the result is a foreground pixel. -/
def bfs (fg : ℕ × ℕ → Bool) (nbrs : ℕ × ℕ → List (ℕ × ℕ)) :
    ℕ → List (ℕ × ℕ) → List (ℕ × ℕ) → List (ℕ × ℕ)
  | 0, visited, _ => visited
  | _ + 1, visited, [] => visited
  | fuel + 1, visited, p :: rest =>
    if p ∈ visited then bfs fg nbrs fuel visited rest
    else if fg p then bfs fg nbrs fuel (visited ++ [p]) (rest ++ nbrs p)
    else bfs fg nbrs fuel visited rest

/-- Connected component of a seed pixel: breadth-first search started at the
seed with the given fuel. -/
def componentOf (fg : ℕ × ℕ → Bool) (nbrs : ℕ × ℕ → List (ℕ × ℕ))
    (fuel : ℕ) (p : ℕ × ℕ) : List (ℕ × ℕ) :=
  bfs fg nbrs fuel [] [p]

/-- Row-major list of the foreground pixels of an H by W grid. -/
def scanPixels (fg : ℕ × ℕ → Bool) (H W : ℕ) : List (ℕ × ℕ) :=
  (List.range H).flatMap fun r =>
    (List.range W).filterMap fun c => if fg (r, c) then some (r, c) else none

/-- Step of the component collection: a pixel already covered by a collected
component is skipped, any other pixel contributes the component it seeds. -/
def ccStep (fg : ℕ × ℕ → Bool) (nbrs : ℕ × ℕ → List (ℕ × ℕ)) (fuel : ℕ)
    (acc : List (List (ℕ × ℕ))) (p : ℕ × ℕ) : List (List (ℕ × ℕ)) :=
  if acc.any fun comp => decide (p ∈ comp) then acc
  else acc ++ [componentOf fg nbrs fuel p]

/-- Connected components of the grid in row-major first-encounter order. -/
def components (fg : ℕ × ℕ → Bool) (nbrs : ℕ × ℕ → List (ℕ × ℕ))
    (fuel H W : ℕ) : List (List (ℕ × ℕ)) :=
  (scanPixels fg H W).foldl (ccStep fg nbrs fuel) []

/-- Minimum of a list of naturals, 0 for the empty list. -/
def natsMin : List ℕ → ℕ
  | [] => 0
  | a :: t => t.foldl Nat.min a

/-- Maximum of a list of naturals, 0 for the empty list. -/
def natsMax : List ℕ → ℕ
  | [] => 0
  | a :: t => t.foldl Nat.max a

/-- Statistics row of one labeled region, as produced by the OpenCV call at
line 38 of the source: label, pixel area, bounding box (x, y, width, height)
with x a column and y a row, and the real-valued centroid (cx, cy). -/
structure CCRegion where
  label : ℕ
  area : ℕ
  x : ℕ
  y : ℕ
  width : ℕ
  height : ℕ
  cx : ℚ
  cy : ℚ
  deriving DecidableEq

/-- Statistics of a component: pixel count, minimal axis-aligned bounding
rectangle and mean pixel position. -/
def statsOf (label : ℕ) (comp : List (ℕ × ℕ)) : CCRegion :=
  let rows := comp.map Prod.fst
  let cols := comp.map Prod.snd
  { label := label
    area := comp.length
    x := natsMin cols
    y := natsMin rows
    width := natsMax cols - natsMin cols + 1
    height := natsMax rows - natsMin rows + 1
    cx := (cols.sum : ℚ) / (comp.length : ℚ)
    cy := (rows.sum : ℚ) / (comp.length : ℚ) }

/-- Foreground regions of the grid, labeled from 1 in row-major
first-encounter order. -/
def cclRegions (fg : ℕ × ℕ → Bool) (nbrs : ℕ × ℕ → List (ℕ × ℕ))
    (fuel H W : ℕ) : List CCRegion :=
  (List.enumFrom 1 (components fg nbrs fuel H W)).map fun lc => statsOf lc.1 lc.2

/-- Model of cv2.connectedComponentsWithStats restricted to the data the
source keeps: the statistics and centroids of the foreground labels 1 and up,
in ascending label order.  A pixel is foreground when its value is nonzero.
The connectivity argument must be 4 or 8 (OpenCV asserts this and the source
relies on the default 8); any other value is rejected. -/
def connectedComponentsWithStats (image : List (List ℚ)) (connectivity : ℕ) :
    Except AnalysisError (List CCRegion) :=
  if connectivity = 4 ∨ connectivity = 8 then
    Except.ok (cclRegions (fun p => decide (maskAt image p ≠ 0))
      (connNeighbors connectivity)
      ((image.length * (image.headD []).length + 1) * 9)
      image.length ((image.headD []).length))
  else Except.error AnalysisError.InvalidConfiguration

/-- Default pixel spacing assumption of the source, 0.5 mm per pixel
(line 8). -/
def PIXEL_SPACING : ℚ := 1/2

/-- Translation of determine_lobe (lines 10 to 29 of the source).  The
centroid is (x, y) and the shape is (H, W); the first two components of a
possibly higher-dimensional shape are used. -/
def determine_lobe (centroid : ℚ × ℚ) (img_shape : ℕ × ℕ) : String :=
  let h : ℚ := img_shape.1
  let w : ℚ := img_shape.2
  let x := centroid.1
  let y := centroid.2
  let hemisphere := if x < w / 2 then "Left Hemisphere" else "Right Hemisphere"
  let region :=
    if y < h / 3 then "Frontal Lobe"
    else if y < 2 * h / 3 then "Parietal Lobe"
    else "Occipital/Temporal Lobe"
  region ++ " (" ++ hemisphere ++ ")"

/-- Classifier contract as worded by the design document, for comparison
with determine_lobe: hemisphere from a strict comparison of cx with W over 2,
band from comparisons of cy with H over 3 and two H over 3, label assembled
as band, the word Lobe, and the hemisphere in parentheses. -/
def classifySpec (centroid : ℚ × ℚ) (img_shape : ℕ × ℕ) : String :=
  let h : ℚ := img_shape.1
  let w : ℚ := img_shape.2
  let x := centroid.1
  let y := centroid.2
  let hemisphere := if x < w / 2 then "Left" else "Right"
  let band :=
    if y < h / 3 then "Frontal"
    else if y < 2 * h / 3 then "Parietal"
    else "Occipital/Temporal"
  band ++ " Lobe (" ++ hemisphere ++ " Hemisphere)"

/-- Parallel arrays returned by extract_tumor_info (line 57 of the source). -/
structure ExtractResult where
  tumor_sizes_px : List ℕ
  tumor_sizes_mm2 : List ℚ
  tumor_bboxes : List (ℕ × ℕ × ℕ × ℕ)
  tumor_centroids : List (ℚ × ℚ)
  tumor_heights_mm : List ℚ
  tumor_widths_mm : List ℚ
  tumor_locations : List String
  deriving DecidableEq

/-- Translation of extract_tumor_info (lines 31 to 57) with the module
constant PIXEL_SPACING threaded as the explicit first argument: threshold the
mask, label its connected components with the OpenCV default connectivity 8,
drop the background row, convert areas with spacing squared and lengths with
spacing, and classify each centroid against img_shape. -/
def extract_tumor_info_with (spacing : ℚ) (binary_mask : List (List ℚ))
    (img_shape : ℕ × ℕ) : ExtractResult :=
  let bm := binarize binary_mask
  let regs :=
    match connectedComponentsWithStats bm 8 with
    | Except.ok r => r
    | Except.error _ => []
  { tumor_sizes_px := regs.map CCRegion.area
    tumor_sizes_mm2 := regs.map fun r => (r.area : ℚ) * spacing ^ 2
    tumor_bboxes := regs.map fun r => (r.x, r.y, r.width, r.height)
    tumor_centroids := regs.map fun r => (r.cx, r.cy)
    tumor_heights_mm := regs.map fun r => (r.height : ℚ) * spacing
    tumor_widths_mm := regs.map fun r => (r.width : ℚ) * spacing
    tumor_locations := regs.map fun r => determine_lobe (r.cx, r.cy) img_shape }

/-- extract_tumor_info as the source calls it, reading the module constant
PIXEL_SPACING. -/
def extract_tumor_info (binary_mask : List (List ℚ)) (img_shape : ℕ × ℕ) :
    ExtractResult :=
  extract_tumor_info_with PIXEL_SPACING binary_mask img_shape

/-- Translation of analyze_mask_tif (lines 59 to 73) on already loaded
arrays: threshold the mask, substitute an all-zero image of the mask shape
when no reference image is supplied, and run extract_tumor_info on the mask
with the shape of that image.  The source then renders and prints the
returned per-region data; this embedding returns it. -/
def analyze_mask_tif (mask : List (List ℚ))
    (original_image : Option (List (List ℚ))) : ExtractResult :=
  let m := binarize mask
  let img :=
    match original_image with
    | some i => i
    | none => zeros_like m
  extract_tumor_info m (shapeOf img)

/-- Mask with two disjoint 3 by 3 foreground blocks separated by a background
column, used by the design document as a worked example. -/
def twoBlocksMask : List (List ℚ) :=
  [[1, 1, 1, 0, 1, 1, 1],
   [1, 1, 1, 0, 1, 1, 1],
   [1, 1, 1, 0, 1, 1, 1]]

/-- Mask with two diagonally adjacent foreground pixels, distinguishing 4-
from 8-connectivity. -/
def diagMask : List (List ℚ) :=
  [[1, 0],
   [0, 1]]

/-- Mask of shape (4, 4) whose single foreground pixel is at row 2,
column 2. -/
def oneAtTwoTwoMask : List (List ℚ) :=
  [[0, 0, 0, 0],
   [0, 0, 0, 0],
   [0, 0, 1, 0],
   [0, 0, 0, 0]]

/-- All-zero reference image of shape (9, 9). -/
def refNine : List (List ℚ) :=
  List.replicate 9 (List.replicate 9 0)

/-- Mask of shape (20, 20) whose single foreground pixel is at row 0,
column 0. -/
def maskTwenty : List (List ℚ) :=
  ((1 : ℚ) :: List.replicate 19 0) :: List.replicate 19 (List.replicate 20 0)

/-- All-zero reference image of shape (10, 10). -/
def refTen : List (List ℚ) :=
  List.replicate 10 (List.replicate 10 0)

/-! Helper lemmas. -/

lemma binThresh_idem (v : ℚ) : binThresh (binThresh v) = binThresh v := by
  unfold binThresh
  by_cases h : (1:ℚ)/2 < v
  · rw [if_pos h, if_pos (by norm_num : (1:ℚ)/2 < 1)]
  · rw [if_neg h, if_neg (by norm_num : ¬ ((1:ℚ)/2 < 0))]

lemma binarize_idem (m : List (List ℚ)) : binarize (binarize m) = binarize m := by
  unfold binarize
  rw [List.map_map]
  refine List.map_congr_left fun row _ => ?_
  show (row.map binThresh).map binThresh = row.map binThresh
  rw [List.map_map]
  exact List.map_congr_left fun v _ => binThresh_idem v

/-- C4: for every centroid and shape, determine_lobe agrees with the
classifier contract worded by the design document (hemisphere Left exactly
when cx is strictly below W over 2, band by strict comparisons of cy with
H over 3 and two H over 3, ties falling to Right and to the lower band);
moreover, for a nonempty image the centroid sitting exactly on W over 2 and
H over 3 is classified Parietal Lobe, Right Hemisphere.  Classification is a
total function: every centroid, inside the bounds or not, gets exactly one
label. -/
theorem spec_c4 :
    (∀ (c : ℚ × ℚ) (s : ℕ × ℕ), determine_lobe c s = classifySpec c s) ∧
    (∀ H W : ℕ, 0 < H →
      determine_lobe (((W : ℕ) : ℚ) / 2, ((H : ℕ) : ℚ) / 3) (H, W) =
        "Parietal Lobe (Right Hemisphere)") := by
  constructor
  · intro c s
    unfold determine_lobe classifySpec
    by_cases hx : c.1 < (s.2 : ℚ) / 2 <;>
      by_cases hy1 : c.2 < (s.1 : ℚ) / 3 <;>
        by_cases hy2 : c.2 < 2 * (s.1 : ℚ) / 3 <;>
          simp [hx, hy1, hy2]
  · intro H W hH
    have hq : (0:ℚ) < (H : ℚ) := by exact_mod_cast hH
    have h1 : ¬ (((W : ℕ) : ℚ) / 2 < ((W : ℕ) : ℚ) / 2) := lt_irrefl _
    have h2 : ¬ (((H : ℕ) : ℚ) / 3 < ((H : ℕ) : ℚ) / 3) := lt_irrefl _
    have h3 : ((H : ℕ) : ℚ) / 3 < 2 * ((H : ℕ) : ℚ) / 3 := by linarith
    unfold determine_lobe
    simp [h1, h2, h3]

/-- C4 witness: the boundary conjunct applied at the concrete shape (3, 4)
so that the centroid lies exactly on both boundaries. -/
theorem spec_c4_witness :
    0 < 3 ∧ determine_lobe (((4 : ℕ) : ℚ) / 2, ((3 : ℕ) : ℚ) / 3) (3, 4) =
      "Parietal Lobe (Right Hemisphere)" :=
  ⟨by decide, spec_c4.2 3 4 (by decide)⟩

/-- C10: thresholding is idempotent, hence extract_tumor_info, which itself
thresholds its input first, gives the same output on the raw mask and on the
thresholded mask. -/
theorem spec_c10 (m : List (List ℚ)) :
    binarize (binarize m) = binarize m ∧
    ∀ shape, extract_tumor_info (binarize m) shape = extract_tumor_info m shape := by
  refine ⟨binarize_idem m, fun shape => ?_⟩
  simp only [extract_tumor_info, extract_tumor_info_with, binarize_idem m]

/-- C5: for every positive spacing, the physical area array is the pixel
area array scaled by spacing squared and the physical height and width arrays
are the bounding box heights and widths scaled by spacing; consequently, for
the same pixel geometry, doubling the spacing quadruples every physical area
and doubles every physical height and width. -/
theorem spec_c5 (s : ℚ) (_hs : 0 < s) (bm : List (List ℚ)) (shape : ℕ × ℕ) :
    ((extract_tumor_info_with s bm shape).tumor_sizes_mm2 =
      (extract_tumor_info_with s bm shape).tumor_sizes_px.map fun a : ℕ => (a : ℚ) * s ^ 2) ∧
    ((extract_tumor_info_with s bm shape).tumor_heights_mm =
      (extract_tumor_info_with s bm shape).tumor_bboxes.map fun b : ℕ × ℕ × ℕ × ℕ => (b.2.2.2 : ℚ) * s) ∧
    ((extract_tumor_info_with s bm shape).tumor_widths_mm =
      (extract_tumor_info_with s bm shape).tumor_bboxes.map fun b : ℕ × ℕ × ℕ × ℕ => (b.2.2.1 : ℚ) * s) ∧
    ((extract_tumor_info_with (2 * s) bm shape).tumor_sizes_mm2 =
      (extract_tumor_info_with s bm shape).tumor_sizes_mm2.map fun v => 4 * v) ∧
    ((extract_tumor_info_with (2 * s) bm shape).tumor_heights_mm =
      (extract_tumor_info_with s bm shape).tumor_heights_mm.map fun v => 2 * v) ∧
    ((extract_tumor_info_with (2 * s) bm shape).tumor_widths_mm =
      (extract_tumor_info_with s bm shape).tumor_widths_mm.map fun v => 2 * v) := by
  simp only [extract_tumor_info_with, List.map_map]
  refine ⟨?_, ?_, ?_, ?_, ?_, ?_⟩ <;>
    refine List.map_congr_left fun r _ => ?_ <;> simp [Function.comp] <;> ring

/-- C5 witness: the scaling law applied at spacing 1 on a one-pixel mask. -/
theorem spec_c5_witness :
    (0 : ℚ) < 1 ∧
    (((extract_tumor_info_with 1 [[1]] (1, 1)).tumor_sizes_mm2 =
      (extract_tumor_info_with 1 [[1]] (1, 1)).tumor_sizes_px.map fun a : ℕ => (a : ℚ) * 1 ^ 2) ∧
    ((extract_tumor_info_with 1 [[1]] (1, 1)).tumor_heights_mm =
      (extract_tumor_info_with 1 [[1]] (1, 1)).tumor_bboxes.map fun b : ℕ × ℕ × ℕ × ℕ => (b.2.2.2 : ℚ) * 1) ∧
    ((extract_tumor_info_with 1 [[1]] (1, 1)).tumor_widths_mm =
      (extract_tumor_info_with 1 [[1]] (1, 1)).tumor_bboxes.map fun b : ℕ × ℕ × ℕ × ℕ => (b.2.2.1 : ℚ) * 1) ∧
    ((extract_tumor_info_with (2 * 1) [[1]] (1, 1)).tumor_sizes_mm2 =
      (extract_tumor_info_with 1 [[1]] (1, 1)).tumor_sizes_mm2.map fun v => 4 * v) ∧
    ((extract_tumor_info_with (2 * 1) [[1]] (1, 1)).tumor_heights_mm =
      (extract_tumor_info_with 1 [[1]] (1, 1)).tumor_heights_mm.map fun v => 2 * v) ∧
    ((extract_tumor_info_with (2 * 1) [[1]] (1, 1)).tumor_widths_mm =
      (extract_tumor_info_with 1 [[1]] (1, 1)).tumor_widths_mm.map fun v => 2 * v)) :=
  ⟨by norm_num, spec_c5 1 (by norm_num) [[1]] (1, 1)⟩

/-- C1 counterexample: the source passes the shape of the loaded reference
image, not the shape of the mask, to the classifier.  On a (4, 4) mask whose
single region has centroid (2, 2), supplying a (9, 9) reference image yields
the label Frontal Lobe, Left Hemisphere, while omitting the reference image
(so that the stand-in image has the mask shape) yields Parietal Lobe, Right
Hemisphere: the result depends on the supplied reference image. -/
theorem spec_c1_counterexample :
    (analyze_mask_tif oneAtTwoTwoMask (some refNine)).tumor_locations =
      ["Frontal Lobe (Left Hemisphere)"] ∧
    (analyze_mask_tif oneAtTwoTwoMask none).tumor_locations =
      ["Parietal Lobe (Right Hemisphere)"] ∧
    (analyze_mask_tif oneAtTwoTwoMask (some refNine)).tumor_locations ≠
      (analyze_mask_tif oneAtTwoTwoMask none).tumor_locations := by
  with_unfolding_all decide

/-- C1 amended: the anatomical label is computed from the shape of the
reference image when one is supplied; only when no reference image is given
does the all-zero stand-in image force that shape to coincide with the mask
shape. -/
theorem spec_c1_amended (mask : List (List ℚ)) (ref : Option (List (List ℚ))) :
    analyze_mask_tif mask ref =
      extract_tumor_info (binarize mask)
        (shapeOf (ref.getD (zeros_like (binarize mask)))) ∧
    shapeOf (zeros_like (binarize mask)) = shapeOf mask := by
  constructor
  · cases ref <;> rfl
  · cases mask with
    | nil => rfl
    | cons row rest => simp [shapeOf, zeros_like, binarize]

/-- C2 counterexample: a reference image of shape (10, 10) supplied with a
mask of shape (20, 20) does not stop the analysis: no ShapeMismatch
condition exists in the source, and the call returns an ordinary record
whose label was computed from the (10, 10) reference shape. -/
theorem spec_c2_counterexample :
    shapeOf maskTwenty = (20, 20) ∧ shapeOf refTen = (10, 10) ∧
    analyze_mask_tif maskTwenty (some refTen) =
      ⟨[1], [1/4], [(0, 0, 1, 1)], [(0, 0)], [1/2], [1/2],
       ["Frontal Lobe (Left Hemisphere)"]⟩ := by
  refine ⟨by with_unfolding_all decide, by with_unfolding_all decide, ?_⟩
  with_unfolding_all decide

/-- C2 amended: the source performs no shape validation at all; with any
supplied reference image, of matching shape or not, the analysis proceeds and
computes its records against the shape of that reference image. -/
theorem spec_c2_amended (mask ref : List (List ℚ)) :
    analyze_mask_tif mask (some ref) = extract_tumor_info (binarize mask) (shapeOf ref) :=
  rfl

/-- C3 counterexample: the conversion to physical units performs no spacing
validation: with spacing 0 the pipeline returns zero areas and lengths, and
with spacing -1 it returns negative lengths; neither configuration raises
any error condition. -/
theorem spec_c3_counterexample :
    extract_tumor_info_with 0 [[1]] (1, 1) =
      ⟨[1], [0], [(0, 0, 1, 1)], [(0, 0)], [0], [0],
       ["Frontal Lobe (Left Hemisphere)"]⟩ ∧
    extract_tumor_info_with (-1) [[1]] (1, 1) =
      ⟨[1], [1], [(0, 0, 1, 1)], [(0, 0)], [-1], [-1],
       ["Frontal Lobe (Left Hemisphere)"]⟩ := by
  constructor <;> with_unfolding_all decide

/-- C3 amended: conversion to physical units is the total function pixel
value times spacing to the first or second power, for every spacing value
with no sign check; the configured spacing itself is the fixed module
constant 0.5, which is positive, so the invalid range is never reached in
the shipped configuration. -/
theorem spec_c3_amended :
    PIXEL_SPACING = 1/2 ∧ (0 : ℚ) < PIXEL_SPACING ∧
    ∀ (s : ℚ) (bm : List (List ℚ)) (shape : ℕ × ℕ),
      ((extract_tumor_info_with s bm shape).tumor_sizes_mm2 =
        (extract_tumor_info_with s bm shape).tumor_sizes_px.map fun a : ℕ => (a : ℚ) * s ^ 2) ∧
      ((extract_tumor_info_with s bm shape).tumor_heights_mm =
        (extract_tumor_info_with s bm shape).tumor_bboxes.map fun b : ℕ × ℕ × ℕ × ℕ => (b.2.2.2 : ℚ) * s) ∧
      ((extract_tumor_info_with s bm shape).tumor_widths_mm =
        (extract_tumor_info_with s bm shape).tumor_bboxes.map fun b : ℕ × ℕ × ℕ × ℕ => (b.2.2.1 : ℚ) * s) := by
  refine ⟨rfl, by norm_num [PIXEL_SPACING], fun s bm shape => ?_⟩
  simp only [extract_tumor_info_with, List.map_map]
  refine ⟨?_, ?_, ?_⟩ <;>
    refine List.map_congr_left fun r _ => ?_ <;> simp [Function.comp]

lemma statsOf_label (k : ℕ) (comp : List (ℕ × ℕ)) : (statsOf k comp).label = k := rfl

lemma enumFrom_label (l : List (List (ℕ × ℕ))) :
    ∀ n, ((List.enumFrom n l).map fun lc => (statsOf lc.1 lc.2).label) =
      List.range' n l.length := by
  induction l with
  | nil => intro n; rfl
  | cons c t ih =>
    intro n
    simp only [List.enumFrom, List.map_cons, statsOf_label, List.length_cons,
      List.range'_succ]
    exact congrArg (n :: ·) (ih (n + 1))

/-- C6: labels are assigned from 1 upward in the order components are first
encountered in the row-major scan, the output is in ascending label order
(the background label 0 is never emitted), and on the mask with two disjoint
3 by 3 foreground blocks the extractor returns exactly two regions, labeled
1 and 2, in row-major discovery order with disjoint bounding boxes. -/
theorem spec_c6 :
    (∀ (fg : ℕ × ℕ → Bool) (nbrs : ℕ × ℕ → List (ℕ × ℕ)) (fuel H W : ℕ),
      (cclRegions fg nbrs fuel H W).map CCRegion.label =
        List.range' 1 (components fg nbrs fuel H W).length) ∧
    extract_tumor_info twoBlocksMask (3, 7) =
      ⟨[9, 9], [9/4, 9/4], [(0, 0, 3, 3), (4, 0, 3, 3)], [(1, 1), (5, 1)],
       [3/2, 3/2], [3/2, 3/2],
       ["Parietal Lobe (Left Hemisphere)", "Parietal Lobe (Right Hemisphere)"]⟩ := by
  constructor
  · intro fg nbrs fuel H W
    unfold cclRegions
    rw [List.map_map]
    exact enumFrom_label _ 1
  · with_unfolding_all decide

/-- C7: the connected-component extractor accepts exactly the connectivity
values 4 and 8 and rejects every other value with InvalidConfiguration; the
default used by the source is 8, under which the two diagonally adjacent
pixels of diagMask form a single region, while connectivity 4 splits them
into two regions. -/
theorem spec_c7 :
    (∀ (m : List (List ℚ)) (c : ℕ), c ≠ 4 → c ≠ 8 →
      connectedComponentsWithStats m c = Except.error AnalysisError.InvalidConfiguration) ∧
    (∀ m : List (List ℚ), ∃ regs, connectedComponentsWithStats m 4 = Except.ok regs) ∧
    (∀ m : List (List ℚ), ∃ regs, connectedComponentsWithStats m 8 = Except.ok regs) ∧
    extract_tumor_info diagMask (2, 2) =
      ⟨[2], [1/2], [(0, 0, 2, 2)], [(1/2, 1/2)], [1], [1],
       ["Frontal Lobe (Left Hemisphere)"]⟩ ∧
    connectedComponentsWithStats (binarize diagMask) 4 =
      Except.ok [⟨1, 1, 0, 0, 1, 1, 0, 0⟩, ⟨2, 1, 1, 1, 1, 1, 1, 1⟩] := by
  refine ⟨?_, ?_, ?_, ?_, ?_⟩
  · intro m c h4 h8
    unfold connectedComponentsWithStats
    rw [if_neg (fun h => h.elim h4 h8)]
  · intro m
    exact ⟨_, by unfold connectedComponentsWithStats; rw [if_pos (Or.inl rfl)]⟩
  · intro m
    exact ⟨_, by unfold connectedComponentsWithStats; rw [if_pos (Or.inr rfl)]⟩
  · with_unfolding_all decide
  · with_unfolding_all decide

/-- C7 witness: connectivity 5 is rejected with InvalidConfiguration. -/
theorem spec_c7_witness :
    connectedComponentsWithStats [[(1 : ℚ)]] 5 =
      Except.error AnalysisError.InvalidConfiguration :=
  spec_c7.1 [[(1 : ℚ)]] 5 (by decide) (by decide)

lemma maskAt_binarize (m : List (List ℚ)) (p : ℕ × ℕ) :
    maskAt (binarize m) p = binThresh (maskAt m p) := by
  unfold maskAt binarize
  rw [List.getElem?_map]
  rcases h1 : m[p.1]? with _ | row
  · show (([] : List ℚ)[p.2]?).getD 0 = binThresh ((([] : List ℚ)[p.2]?).getD 0)
    show (0:ℚ) = binThresh 0
    unfold binThresh
    rw [if_neg (by norm_num : ¬ ((1:ℚ)/2 < 0))]
  · show ((row.map binThresh)[p.2]?).getD 0 = binThresh ((row[p.2]?).getD 0)
    rw [List.getElem?_map]
    rcases h2 : row[p.2]? with _ | v
    · show (0:ℚ) = binThresh 0
      unfold binThresh
      rw [if_neg (by norm_num : ¬ ((1:ℚ)/2 < 0))]
    · rfl

lemma scanPixels_mem (fg : ℕ × ℕ → Bool) (H W : ℕ) (p : ℕ × ℕ)
    (hp : p ∈ scanPixels fg H W) : fg p = true := by
  unfold scanPixels at hp
  simp only [List.mem_flatMap, List.mem_filterMap, List.mem_range] at hp
  obtain ⟨r, _, c, _, hif⟩ := hp
  by_cases hf : fg (r, c) = true
  · rw [if_pos hf] at hif
    obtain rfl := Option.some.inj hif
    exact hf
  · rw [if_neg hf] at hif
    cases hif

lemma scanPixels_nil (fg : ℕ × ℕ → Bool) (H W : ℕ) (h : ∀ p, fg p = false) :
    scanPixels fg H W = [] := by
  rcases hs : scanPixels fg H W with _ | ⟨p, t⟩
  · rfl
  · have hp : p ∈ scanPixels fg H W := by rw [hs]; exact List.mem_cons_self p t
    have := scanPixels_mem fg H W p hp
    rw [h p] at this
    cases this

lemma ccws_of_no_fg (image : List (List ℚ)) (conn : ℕ) (hc : conn = 4 ∨ conn = 8)
    (h : ∀ p, maskAt image p = 0) :
    connectedComponentsWithStats image conn = Except.ok [] := by
  unfold connectedComponentsWithStats
  rw [if_pos hc]
  unfold cclRegions components
  rw [scanPixels_nil _ _ _ (fun p => by simp [h p])]
  rfl

/-- C8: for every mask none of whose entries exceeds the 0.5 threshold, the
analysis returns the empty result (every per-region array empty), raising no
error, whatever reference image is supplied. -/
theorem spec_c8 (mask : List (List ℚ)) (ref : Option (List (List ℚ)))
    (h : ∀ row ∈ mask, ∀ v ∈ row, v ≤ 1/2) :
    analyze_mask_tif mask ref = ⟨[], [], [], [], [], [], []⟩ := by
  have hval : ∀ p, maskAt mask p ≤ 1/2 := by
    intro p
    unfold maskAt
    rcases h1 : mask[p.1]? with _ | row
    · show (0:ℚ) ≤ 1/2
      norm_num
    · simp only [Option.getD_some]
      rcases h2 : row[p.2]? with _ | v
      · show (0:ℚ) ≤ 1/2
        norm_num
      · simp only [Option.getD_some]
        have hrow : row ∈ mask := List.getElem?_mem h1
        have hv : v ∈ row := List.getElem?_mem h2
        exact h row hrow v hv
  have hzero : ∀ p, maskAt (binarize (binarize mask)) p = 0 := by
    intro p
    rw [maskAt_binarize, maskAt_binarize]
    have h1 : binThresh (maskAt mask p) = 0 := by
      unfold binThresh
      rw [if_neg (not_lt.mpr (hval p))]
    rw [h1]
    unfold binThresh
    rw [if_neg (by norm_num : ¬ ((1:ℚ)/2 < 0))]
  have hok := ccws_of_no_fg (binarize (binarize mask)) 8 (Or.inr rfl) hzero
  simp [analyze_mask_tif, extract_tumor_info, extract_tumor_info_with, hok]

/-- C8 witness: the all-background one-pixel mask yields the empty result. -/
theorem spec_c8_witness :
    analyze_mask_tif [[(0 : ℚ)]] none = ⟨[], [], [], [], [], [], []⟩ :=
  spec_c8 [[(0 : ℚ)]] none (by with_unfolding_all decide)

lemma bfs_subset (fg : ℕ × ℕ → Bool) (nbrs : ℕ × ℕ → List (ℕ × ℕ)) :
    ∀ (fuel : ℕ) (visited queue : List (ℕ × ℕ)),
      visited ⊆ bfs fg nbrs fuel visited queue := by
  intro fuel
  induction fuel with
  | zero =>
    intro visited queue
    simp only [bfs]
    exact List.Subset.refl _
  | succ f ih =>
    intro visited queue
    cases queue with
    | nil =>
      simp only [bfs]
      exact List.Subset.refl _
    | cons p rest =>
      simp only [bfs]
      by_cases hp : p ∈ visited
      · rw [if_pos hp]
        exact ih visited rest
      · rw [if_neg hp]
        by_cases hf : fg p = true
        · rw [if_pos hf]
          exact List.Subset.trans (List.subset_append_left _ _) (ih _ _)
        · rw [if_neg hf]
          exact ih visited rest

lemma bfs_sound (fg : ℕ × ℕ → Bool) (nbrs : ℕ × ℕ → List (ℕ × ℕ)) :
    ∀ (fuel : ℕ) (visited queue : List (ℕ × ℕ)),
      (∀ q ∈ visited, fg q = true) →
      ∀ r ∈ bfs fg nbrs fuel visited queue, fg r = true := by
  intro fuel
  induction fuel with
  | zero =>
    intro visited queue hv
    simp only [bfs]
    exact hv
  | succ f ih =>
    intro visited queue hv
    cases queue with
    | nil =>
      simp only [bfs]
      exact hv
    | cons p rest =>
      simp only [bfs]
      by_cases hp : p ∈ visited
      · rw [if_pos hp]
        exact ih visited rest hv
      · rw [if_neg hp]
        by_cases hf : fg p = true
        · rw [if_pos hf]
          refine ih _ _ fun q hq => ?_
          rcases List.mem_append.mp hq with hq | hq
          · exact hv q hq
          · have := List.mem_singleton.mp hq
            subst this
            exact hf
        · rw [if_neg hf]
          exact ih visited rest hv

lemma componentOf_sound (fg : ℕ × ℕ → Bool) (nbrs : ℕ × ℕ → List (ℕ × ℕ))
    (fuel : ℕ) (p : ℕ × ℕ) :
    ∀ q ∈ componentOf fg nbrs fuel p, fg q = true := fun q hq =>
  bfs_sound fg nbrs fuel [] [p] (by simp) q hq

lemma componentOf_self (fg : ℕ × ℕ → Bool) (nbrs : ℕ × ℕ → List (ℕ × ℕ))
    (fuel : ℕ) (p : ℕ × ℕ) (hfuel : 0 < fuel) (hf : fg p = true) :
    p ∈ componentOf fg nbrs fuel p := by
  obtain ⟨k, rfl⟩ : ∃ k, fuel = k + 1 := ⟨fuel - 1, by omega⟩
  unfold componentOf
  simp only [bfs]
  rw [if_neg (List.not_mem_nil p), if_pos hf]
  simp only [List.nil_append]
  exact bfs_subset fg nbrs k [p] (nbrs p) (List.mem_singleton_self p)

lemma foldl_ccStep_spec (fg : ℕ × ℕ → Bool) (nbrs : ℕ × ℕ → List (ℕ × ℕ))
    (fuel : ℕ) (l : List (ℕ × ℕ)) :
    ∀ acc, (∀ p ∈ l, fg p = true) →
      (∀ c ∈ acc, ∃ p, fg p = true ∧ c = componentOf fg nbrs fuel p) →
      ∀ c ∈ l.foldl (ccStep fg nbrs fuel) acc,
        ∃ p, fg p = true ∧ c = componentOf fg nbrs fuel p := by
  induction l with
  | nil =>
    intro acc _ hacc c hc
    exact hacc c hc
  | cons p t ih =>
    intro acc hl hacc c hc
    rw [List.foldl_cons] at hc
    refine ih (ccStep fg nbrs fuel acc p)
      (fun q hq => hl q (List.mem_cons_of_mem _ hq)) ?_ c hc
    intro d hd
    unfold ccStep at hd
    by_cases hb : (acc.any fun comp => decide (p ∈ comp)) = true
    · rw [if_pos hb] at hd
      exact hacc d hd
    · rw [if_neg hb] at hd
      rcases List.mem_append.mp hd with hm | hm
      · exact hacc d hm
      · exact ⟨p, hl p (List.mem_cons_self p t), List.mem_singleton.mp hm⟩

lemma components_spec (fg : ℕ × ℕ → Bool) (nbrs : ℕ × ℕ → List (ℕ × ℕ))
    (fuel H W : ℕ) :
    ∀ comp ∈ components fg nbrs fuel H W,
      ∃ p, fg p = true ∧ comp = componentOf fg nbrs fuel p := by
  intro comp hc
  exact foldl_ccStep_spec fg nbrs fuel (scanPixels fg H W) []
    (fun p hp => scanPixels_mem fg H W p hp) (by simp) comp hc

lemma enumFrom_mem {α : Type} (l : List α) :
    ∀ (n : ℕ) (pr : ℕ × α), pr ∈ List.enumFrom n l → n ≤ pr.1 ∧ pr.2 ∈ l := by
  induction l with
  | nil =>
    intro n pr h
    simp [List.enumFrom] at h
  | cons x t ih =>
    intro n pr h
    simp only [List.enumFrom] at h
    rcases List.mem_cons.mp h with h | h
    · subst h
      exact ⟨le_refl n, List.mem_cons_self x t⟩
    · obtain ⟨h1, h2⟩ := ih (n + 1) pr h
      exact ⟨by omega, List.mem_cons_of_mem x h2⟩

lemma foldl_min_le_init (t : List ℕ) : ∀ a : ℕ, t.foldl Nat.min a ≤ a := by
  induction t with
  | nil => intro a; simp
  | cons b t ih =>
    intro a
    rw [List.foldl_cons]
    exact le_trans (ih (Nat.min a b)) (Nat.min_le_left a b)

lemma foldl_min_le_mem (t : List ℕ) : ∀ a b : ℕ, b ∈ t → t.foldl Nat.min a ≤ b := by
  induction t with
  | nil => intro a b h; cases h
  | cons c t ih =>
    intro a b h
    rw [List.foldl_cons]
    rcases List.mem_cons.mp h with h | h
    · subst h
      exact le_trans (foldl_min_le_init t (Nat.min a b)) (Nat.min_le_right a b)
    · exact ih (Nat.min a c) b h

lemma init_le_foldl_max (t : List ℕ) : ∀ a : ℕ, a ≤ t.foldl Nat.max a := by
  induction t with
  | nil => intro a; simp
  | cons b t ih =>
    intro a
    rw [List.foldl_cons]
    exact le_trans (Nat.le_max_left a b) (ih (Nat.max a b))

lemma mem_le_foldl_max (t : List ℕ) : ∀ a b : ℕ, b ∈ t → b ≤ t.foldl Nat.max a := by
  induction t with
  | nil => intro a b h; cases h
  | cons c t ih =>
    intro a b h
    rw [List.foldl_cons]
    rcases List.mem_cons.mp h with h | h
    · subst h
      exact le_trans (Nat.le_max_right a b) (init_le_foldl_max t (Nat.max a b))
    · exact ih (Nat.max a c) b h

lemma foldl_max_lt (t : List ℕ) :
    ∀ a M : ℕ, a < M → (∀ b ∈ t, b < M) → t.foldl Nat.max a < M := by
  induction t with
  | nil => intro a M ha _; simpa using ha
  | cons c t ih =>
    intro a M ha h
    rw [List.foldl_cons]
    exact ih (Nat.max a c) M (Nat.max_lt.mpr ⟨ha, h c (List.mem_cons_self c t)⟩)
      fun b hb => h b (List.mem_cons_of_mem c hb)

lemma natsMin_le (l : List ℕ) (b : ℕ) (hb : b ∈ l) : natsMin l ≤ b := by
  cases l with
  | nil => cases hb
  | cons a t =>
    unfold natsMin
    rcases List.mem_cons.mp hb with h | h
    · subst h
      exact foldl_min_le_init t b
    · exact foldl_min_le_mem t a b h

lemma le_natsMax (l : List ℕ) (b : ℕ) (hb : b ∈ l) : b ≤ natsMax l := by
  cases l with
  | nil => cases hb
  | cons a t =>
    unfold natsMax
    rcases List.mem_cons.mp hb with h | h
    · subst h
      exact init_le_foldl_max t b
    · exact mem_le_foldl_max t a b h

lemma natsMax_lt (l : List ℕ) (M : ℕ) (hne : l ≠ []) (h : ∀ b ∈ l, b < M) :
    natsMax l < M := by
  cases l with
  | nil => exact absurd rfl hne
  | cons a t =>
    unfold natsMax
    exact foldl_max_lt t a M (h a (List.mem_cons_self a t))
      fun b hb => h b (List.mem_cons_of_mem a hb)

lemma natsMin_le_natsMax (l : List ℕ) (hne : l ≠ []) : natsMin l ≤ natsMax l := by
  cases l with
  | nil => exact absurd rfl hne
  | cons a t =>
    unfold natsMin natsMax
    exact le_trans (foldl_min_le_init t a) (init_le_foldl_max t a)

lemma length_mul_le_sum (l : List ℕ) (m : ℕ) (h : ∀ v ∈ l, m ≤ v) :
    l.length * m ≤ l.sum := by
  induction l with
  | nil => simp
  | cons a t ih =>
    rw [List.sum_cons, List.length_cons]
    have h1 := h a (List.mem_cons_self a t)
    have h2 := ih fun v hv => h v (List.mem_cons_of_mem a hv)
    calc (t.length + 1) * m = m + t.length * m := by ring
    _ ≤ a + t.sum := Nat.add_le_add h1 h2

lemma sum_le_length_mul (l : List ℕ) (M : ℕ) (h : ∀ v ∈ l, v ≤ M) :
    l.sum ≤ l.length * M := by
  induction l with
  | nil => simp
  | cons a t ih =>
    rw [List.sum_cons, List.length_cons]
    have h1 := h a (List.mem_cons_self a t)
    have h2 := ih fun v hv => h v (List.mem_cons_of_mem a hv)
    calc a + t.sum ≤ M + t.length * M := Nat.add_le_add h1 h2
    _ = (t.length + 1) * M := by ring

lemma centroid_bounds (l : List ℕ) (hne : l ≠ []) :
    (natsMin l : ℚ) ≤ (l.sum : ℚ) / (l.length : ℚ) ∧
    (l.sum : ℚ) / (l.length : ℚ) ≤ (natsMax l : ℚ) := by
  have hlen : 0 < l.length := List.length_pos.mpr hne
  have hq : (0 : ℚ) < (l.length : ℚ) := by exact_mod_cast hlen
  constructor
  · rw [le_div_iff₀ hq]
    have hnat : natsMin l * l.length ≤ l.sum := by
      rw [Nat.mul_comm]
      exact length_mul_le_sum l (natsMin l) fun v hv => natsMin_le l v hv
    exact_mod_cast hnat
  · rw [div_le_iff₀ hq]
    have hnat : l.sum ≤ natsMax l * l.length := by
      rw [Nat.mul_comm]
      exact sum_le_length_mul l (natsMax l) fun v hv => le_natsMax l v hv
    exact_mod_cast hnat

lemma statsOf_bounds (k : ℕ) (comp : List (ℕ × ℕ)) (H W : ℕ)
    (hne : comp ≠ []) (hb : ∀ p ∈ comp, p.1 < H ∧ p.2 < W) :
    0 < (statsOf k comp).area ∧
    (statsOf k comp).x + (statsOf k comp).width ≤ W ∧
    (statsOf k comp).y + (statsOf k comp).height ≤ H ∧
    ((statsOf k comp).x : ℚ) ≤ (statsOf k comp).cx ∧
    (statsOf k comp).cx < (((statsOf k comp).x + (statsOf k comp).width : ℕ) : ℚ) ∧
    ((statsOf k comp).y : ℚ) ≤ (statsOf k comp).cy ∧
    (statsOf k comp).cy < (((statsOf k comp).y + (statsOf k comp).height : ℕ) : ℚ) := by
  have hcne : comp.map Prod.snd ≠ [] := fun hnil => hne (List.map_eq_nil_iff.mp hnil)
  have hrne : comp.map Prod.fst ≠ [] := fun hnil => hne (List.map_eq_nil_iff.mp hnil)
  have hcW : ∀ v ∈ comp.map Prod.snd, v < W := by
    intro v hv
    obtain ⟨p, hp, rfl⟩ := List.mem_map.mp hv
    exact (hb p hp).2
  have hrH : ∀ v ∈ comp.map Prod.fst, v < H := by
    intro v hv
    obtain ⟨p, hp, rfl⟩ := List.mem_map.mp hv
    exact (hb p hp).1
  have hminc := natsMin_le_natsMax (comp.map Prod.snd) hcne
  have hminr := natsMin_le_natsMax (comp.map Prod.fst) hrne
  have hmaxc := natsMax_lt (comp.map Prod.snd) W hcne hcW
  have hmaxr := natsMax_lt (comp.map Prod.fst) H hrne hrH
  have hcentc := centroid_bounds (comp.map Prod.snd) hcne
  have hcentr := centroid_bounds (comp.map Prod.fst) hrne
  have hlc : (comp.map Prod.snd).length = comp.length := List.length_map comp Prod.snd
  have hlr : (comp.map Prod.fst).length = comp.length := List.length_map comp Prod.fst
  simp only [statsOf]
  refine ⟨List.length_pos.mpr hne, by omega, by omega, ?_, ?_, ?_, ?_⟩
  · rw [← hlc]
    exact hcentc.1
  · have hxw : natsMin (comp.map Prod.snd) +
        (natsMax (comp.map Prod.snd) - natsMin (comp.map Prod.snd) + 1) =
        natsMax (comp.map Prod.snd) + 1 := by omega
    rw [hxw, ← hlc]
    refine lt_of_le_of_lt hcentc.2 ?_
    exact_mod_cast Nat.lt_succ_self _
  · rw [← hlr]
    exact hcentr.1
  · have hyh : natsMin (comp.map Prod.fst) +
        (natsMax (comp.map Prod.fst) - natsMin (comp.map Prod.fst) + 1) =
        natsMax (comp.map Prod.fst) + 1 := by omega
    rw [hyh, ← hlr]
    refine lt_of_le_of_lt hcentr.2 ?_
    exact_mod_cast Nat.lt_succ_self _

lemma fg_bounds (m : List (List ℚ)) (W : ℕ) (hrect : ∀ row ∈ m, row.length = W)
    (q : ℕ × ℕ) (h : maskAt (binarize m) q ≠ 0) : q.1 < m.length ∧ q.2 < W := by
  unfold maskAt at h
  rcases h1 : m[q.1]? with _ | row
  · exfalso
    apply h
    unfold binarize
    rw [List.getElem?_map, h1]
    rfl
  · have hlen : q.1 < m.length := (List.getElem?_eq_some_iff.mp h1).1
    refine ⟨hlen, ?_⟩
    have hrm : row ∈ m := List.getElem?_mem h1
    by_contra hc
    push_neg at hc
    apply h
    unfold binarize
    rw [List.getElem?_map, h1]
    simp only [Option.map_some', Option.getD_some]
    rw [List.getElem?_eq_none (by rw [List.length_map, hrect row hrm]; omega)]
    rfl

/-- C9: every region produced from a rectangular H by W mask has a label of
at least 1 (label 0 is never materialized), a positive pixel area, a
bounding box contained in the grid, and a centroid lying inside its own
bounding box. -/
theorem spec_c9 (m : List (List ℚ)) (W : ℕ) (hrect : ∀ row ∈ m, row.length = W)
    (conn : ℕ) (regs : List CCRegion)
    (hok : connectedComponentsWithStats (binarize m) conn = Except.ok regs)
    (reg : CCRegion) (hreg : reg ∈ regs) :
    1 ≤ reg.label ∧ 0 < reg.area ∧
    reg.x + reg.width ≤ W ∧ reg.y + reg.height ≤ m.length ∧
    (reg.x : ℚ) ≤ reg.cx ∧ reg.cx < ((reg.x + reg.width : ℕ) : ℚ) ∧
    (reg.y : ℚ) ≤ reg.cy ∧ reg.cy < ((reg.y + reg.height : ℕ) : ℚ) := by
  unfold connectedComponentsWithStats at hok
  by_cases hc : conn = 4 ∨ conn = 8
  case neg =>
    rw [if_neg hc] at hok
    cases hok
  rw [if_pos hc] at hok
  injection hok with hregs
  subst hregs
  unfold cclRegions at hreg
  obtain ⟨lc, hlc, rfl⟩ := List.mem_map.mp hreg
  obtain ⟨hn, hcm⟩ := enumFrom_mem _ 1 lc hlc
  obtain ⟨p, hp, hcomp⟩ := components_spec _ _ _ _ _ lc.2 hcm
  have hfuel : 0 < ((binarize m).length * ((binarize m).headD []).length + 1) * 9 :=
    Nat.mul_pos (Nat.succ_pos _) (by norm_num)
  have hne : lc.2 ≠ [] := by
    rw [hcomp]
    intro hnil
    have hself := componentOf_self (fun q => decide (maskAt (binarize m) q ≠ 0))
      (connNeighbors conn) (((binarize m).length * ((binarize m).headD []).length + 1) * 9)
      p hfuel hp
    rw [hnil] at hself
    cases hself
  have hbnd : ∀ q ∈ lc.2, q.1 < m.length ∧ q.2 < W := by
    intro q hq
    rw [hcomp] at hq
    have hfq := componentOf_sound (fun q => decide (maskAt (binarize m) q ≠ 0))
      (connNeighbors conn) (((binarize m).length * ((binarize m).headD []).length + 1) * 9)
      p q hq
    exact fg_bounds m W hrect q (of_decide_eq_true hfq)
  have hmain := statsOf_bounds lc.1 lc.2 m.length W hne hbnd
  exact ⟨by rw [statsOf_label]; omega, hmain.1, hmain.2.1, hmain.2.2.1,
    hmain.2.2.2.1, hmain.2.2.2.2.1, hmain.2.2.2.2.2.1, hmain.2.2.2.2.2.2⟩

/-- C9 witness: the invariants instantiated on the one-pixel mask, whose
single region is labeled 1 with a unit bounding box at the origin. -/
theorem spec_c9_witness :
    1 ≤ (CCRegion.mk 1 1 0 0 1 1 0 0).label ∧ 0 < (CCRegion.mk 1 1 0 0 1 1 0 0).area ∧
    (CCRegion.mk 1 1 0 0 1 1 0 0).x + (CCRegion.mk 1 1 0 0 1 1 0 0).width ≤ 1 ∧
    (CCRegion.mk 1 1 0 0 1 1 0 0).y + (CCRegion.mk 1 1 0 0 1 1 0 0).height ≤
      [[(1 : ℚ)]].length ∧
    ((CCRegion.mk 1 1 0 0 1 1 0 0).x : ℚ) ≤ (CCRegion.mk 1 1 0 0 1 1 0 0).cx ∧
    (CCRegion.mk 1 1 0 0 1 1 0 0).cx <
      (((CCRegion.mk 1 1 0 0 1 1 0 0).x + (CCRegion.mk 1 1 0 0 1 1 0 0).width : ℕ) : ℚ) ∧
    ((CCRegion.mk 1 1 0 0 1 1 0 0).y : ℚ) ≤ (CCRegion.mk 1 1 0 0 1 1 0 0).cy ∧
    (CCRegion.mk 1 1 0 0 1 1 0 0).cy <
      (((CCRegion.mk 1 1 0 0 1 1 0 0).y + (CCRegion.mk 1 1 0 0 1 1 0 0).height : ℕ) : ℚ) :=
  spec_c9 [[(1 : ℚ)]] 1 (by with_unfolding_all decide) 8 [CCRegion.mk 1 1 0 0 1 1 0 0]
    (by with_unfolding_all decide) (CCRegion.mk 1 1 0 0 1 1 0 0)
    (by with_unfolding_all decide)
